import Mathlib

/-!
Verification of the EVA optimization core: the constant-value abstraction
(eva/ir/constant_value.cpp, eva/ir/constant_value.h), the hash combiner
(eva/util/hash_combine.h) and the semantic term model with its
common-subexpression-elimination pass
(eva/common/common_subexpression_elimination.h), shallowly embedded.

Modelling conventions:
* C++ `double` payloads are modelled as exact integers (`Value := Int`): the
  embedded code only compares them with `==`/`!= 0` and feeds them to a hash.
* `std::size_t` arithmetic is modelled as `Nat` reduced modulo `2 ^ 64`.
* `std::hash` of an integral value is modelled as the identity (as in
  libstdc++); `std::hash<double>` is kept abstract as a parameter
  `hd : Value → Nat`, so every hash statement holds for any such function.
* An out-of-bounds `std::vector` access (`operator[]` past the end, which is
  undefined behaviour, or `.at`, which raises `std::out_of_range`) is
  modelled as an `Option`/`Except` failure.
-/

namespace EVA

/-- C++ `double` payloads, modelled as exact integers (only compared and
hashed by the embedded code, never computed with). -/
abbrev Value := Int

/-- The modulus of `std::size_t` arithmetic. -/
def M : Nat := 2 ^ 64

/-- eva/util/hash_combine.h:
`hash ^= hasher(value) + 0x9e3779b9 + (hash << 6) + (hash >> 2);`
where `v` stands for the already-hashed `hasher(value)` and all arithmetic is
in `size_t` (modulo `2 ^ 64`). -/
def hashCombine (h v : Nat) : Nat :=
  h ^^^ ((v + 0x9e3779b9 + h * 64 + h / 4) % M)

/-- The two physical representations of `eva::ConstantValue`:
`DenseConstantValue` stores the logical period `size` and a buffer whose
length must divide `size`; `SparseConstantValue` stores `size` and its
post-construction `(index, value)` entry list. -/
inductive CV where
  | dense (size : Nat) (values : List Value)
  | sparse (size : Nat) (values : List (Nat × Value))
deriving DecidableEq, Inhabited

/-- Modelled from the spec (used only to state what a value denotes, never by
the embedded code): the logical `size`-length pattern of a constant. A Dense
value tiles its stored buffer across the `size` positions; a Sparse value has
each listed value at its index and zero at every unlisted position. -/
def specPattern : CV → List Value
  | .dense size values =>
      (List.range size).map fun i => values.getD (i % values.length) 0
  | .sparse size entries =>
      (List.range size).map fun i =>
        match entries.find? (fun e => decide (e.1 = i)) with
        | some e => e.2
        | none => 0

/-- `DenseConstantValue::operator==(const DenseConstantValue &)`:
`size == other.size && values == other.values` — a raw buffer comparison. -/
def denseEqDense (s1 : Nat) (v1 : List Value) (s2 : Nat) (v2 : List Value) : Bool :=
  decide (s1 = s2) && decide (v1 = v2)

/-- `DenseConstantValue::operator==(const SparseConstantValue &)`: the sizes
must match and every sparse entry must equal the dense buffer at the entry's
index reduced modulo the buffer length
(`values[entry.first % values.size()] != entry.second` fails the comparison);
positions not listed by the sparse value are never checked. The modulo keeps
the index in bounds, so `getD`'s default is never read for a nonempty buffer. -/
def denseEqSparse (s1 : Nat) (v1 : List Value) (s2 : Nat)
    (entries : List (Nat × Value)) : Bool :=
  decide (s1 = s2) && entries.all fun e => decide (v1.getD (e.1 % v1.length) 0 = e.2)

/-- `SparseConstantValue::operator==(const SparseConstantValue &)`: the sizes,
the entry counts and the entries themselves must match exactly. -/
def sparseEqSparse (s1 : Nat) (e1 : List (Nat × Value)) (s2 : Nat)
    (e2 : List (Nat × Value)) : Bool :=
  decide (s1 = s2) && decide (e1 = e2)

/-- `ConstantValue::operator==` after the virtual double dispatch:
`Sparse == Dense` forwards to `Dense::operator==(const SparseConstantValue &)`
with the same arguments, so the mixed cases share one comparison. -/
def cvEq : CV → CV → Bool
  | .dense s1 v1, .dense s2 v2 => denseEqDense s1 v1 s2 v2
  | .dense s1 v1, .sparse s2 e2 => denseEqSparse s1 v1 s2 e2
  | .sparse s2 e2, .dense s1 v1 => denseEqSparse s1 v1 s2 e2
  | .sparse s1 e1, .sparse s2 e2 => sparseEqSparse s1 e1 s2 e2

/-- The loop of `DenseConstantValue::hash`: `n` iterations remain, `i` is the
loop counter (running to `size`), `h` the accumulated hash and `zc` the
pending run of zeros (`zero_count`). `values[i]` is an unchecked vector
access: the source reads it for every `i < size`, so when the stored buffer
is shorter than `size` the read past the end is undefined behaviour,
modelled as `none`. -/
def denseHashGo (hd : Value → Nat) (values : List Value) :
    Nat → Nat → Nat → Nat → Option Nat
  | 0, _, h, zc => some (if 0 < zc then hashCombine h zc else h)
  | n + 1, i, h, zc =>
    match values[i]? with
    | none => none
    | some v =>
      if v = 0 then denseHashGo hd values n (i + 1) h (zc + 1)
      else denseHashGo hd values n (i + 1)
        (hashCombine (if 0 < zc then hashCombine h zc else h) (hd v)) 0

/-- `DenseConstantValue::hash`: run-length-encode the zeros of
`values[0] .. values[size - 1]` into the hash — flush the pending zero run
before each nonzero value and once more after the loop. -/
def denseHash (hd : Value → Nat) (size : Nat) (values : List Value) : Option Nat :=
  denseHashGo hd values size 0 0 0

/-- The loop of `SparseConstantValue::hash`: for each entry, combine the gap
`pair.first - prev` when positive, then the hashed value, then set
`prev = pair.first` (the entry's index itself, not the position after it).
Returns the accumulated hash and the final `prev`. -/
def sparseHashGo (hd : Value → Nat) : List (Nat × Value) → Nat → Nat → Nat × Nat
  | [], h, prev => (h, prev)
  | e :: rest, h, prev =>
    sparseHashGo hd rest
      (hashCombine (if 0 < e.1 - prev then hashCombine h (e.1 - prev) else h) (hd e.2))
      e.1

/-- `SparseConstantValue::hash`: the loop above, then a final
`hash_combine(hash, size - prev)` when `size - prev` is positive. -/
def sparseHash (hd : Value → Nat) (size : Nat) (entries : List (Nat × Value)) : Nat :=
  let p := sparseHashGo hd entries 0 0
  if 0 < size - p.2 then hashCombine p.1 (size - p.2) else p.1

/-- `std::hash<eva::ConstantValue>`: dispatch to the variant's `hash()`. -/
def cvHash (hd : Value → Nat) : CV → Option Nat
  | .dense s v => denseHash hd s v
  | .sparse s e => some (sparseHash hd s e)

/-- The two kinds of exception the expansion paths raise:
`std::runtime_error` from `ConstantValue::validateSlots` and
`std::out_of_range` from `std::vector::at`. -/
inductive ExpandError where
  | invalidSlots
  | outOfRange
deriving DecidableEq

/-- `ConstantValue::validateSlots`: fails when `slots < size` or `size` does
not evenly divide `slots`. -/
def validateSlots (size slots : Nat) : Option ExpandError :=
  if slots < size then some .invalidSlots
  else if slots % size ≠ 0 then some .invalidSlots
  else none

/-- An assignment through `std::vector::at`: fails when the index is out of
range. -/
def writeAt (l : List Value) (i : Nat) (v : Value) : Option (List Value) :=
  if i < l.length then some (l.set i v) else none

/-- The index sequence of `for (int i = 0; i < slots; i += step)` for
`step ≥ 1` (the only way the embedded code reaches the loop). -/
def loopPositions (slots step : Nat) : List Nat :=
  List.range' 0 ((slots + step - 1) / step) step

/-- `SparseConstantValue::expand` / `expandTo`: validate the slot count,
zero-fill a buffer of `slots` entries, then for each entry write its value at
`entry.first + i` for `i = 0, step, 2 * step, ...` below `slots` — where the
source's step is `values.size()`, the number of stored entries (not the
period `size`). The writes go through `.at`, so an index reaching `slots` is
an `outOfRange` error. -/
def sparseExpand (size : Nat) (entries : List (Nat × Value)) (slots : Nat) :
    Except ExpandError (List Value) :=
  match validateSlots size slots with
  | some e => .error e
  | none =>
    entries.foldlM
      (fun acc e =>
        (loopPositions slots entries.length).foldlM
          (fun acc2 i =>
            match writeAt acc2 (e.1 + i) e.2 with
            | some acc3 => Except.ok acc3
            | none => Except.error ExpandError.outOfRange)
          acc)
      (List.replicate slots (0 : Value))

/-- A `std::uint32_t` reinterpreted as a signed 32-bit `int`, as the sort
comparator of the `SparseConstantValue` constructor does when it converts the
entries to `std::pair<int, int>` before comparing their `first` components. -/
def toSigned32 (n : Nat) : Int :=
  if n % 2 ^ 32 < 2 ^ 31 then ((n % 2 ^ 32 : Nat) : Int)
  else ((n % 2 ^ 32 : Nat) : Int) - 2 ^ 32

/-- The constructor's duplicate scan over the sorted entries: walk adjacent
pairs and fail on an equal `first`. -/
def hasDupAdjacent : List (Nat × Value) → Bool
  | [] => false
  | [_] => false
  | a :: b :: rest => decide (a.1 = b.1) || hasDupAdjacent (b :: rest)

/-- The `SparseConstantValue` constructor: keep only the nonzero entries
(`copy_if` with `entry.second != 0`), and when any remain, sort them by index
— compared as signed 32-bit ints by the converting comparator — and throw on
a duplicate index (`none`). `std::sort`'s strict comparator is modelled by a
comparison sort on its non-strict closure, which agrees with it whenever the
result is observable: on success the keys are distinct, so the sorted list is
unique; on failure only the adjacency of equal keys matters. -/
def mkSparse (entriesIn : List (Nat × Value)) : Option (List (Nat × Value)) :=
  let kept := entriesIn.filter fun e => decide (e.2 ≠ 0)
  if 0 < kept.length then
    let sorted := kept.insertionSort fun a b => toSigned32 a.1 ≤ toSigned32 b.1
    if hasDupAdjacent sorted then none else some sorted
  else some kept

/-- `SparseConstantValue::isZero`: true exactly when no entries are stored. -/
def sparseIsZero (stored : List (Nat × Value)) : Bool :=
  decide (stored.length = 0)

/-- The operation kinds the semantic term model handles. -/
inductive Op where
  | undef
  | input
  | output
  | constant
  | negate
  | add
  | sub
  | mul
  | relinearize
  | modSwitch
  | rotateLeftConst
  | rotateRightConst
  | rescale
  | encode
deriving DecidableEq, Inhabited

/-- The numeric value `std::hash` sees for an `Op`. The enumeration's
declaration (eva/ir/ops.h) is not among the provided sources, so the values
are modelled as a fixed arbitrary enumeration; no claim depends on the
specific numbers, only on their being fixed per kind. -/
def opCode : Op → Nat
  | .undef => 0
  | .input => 1
  | .output => 2
  | .constant => 3
  | .negate => 4
  | .add => 5
  | .sub => 6
  | .mul => 7
  | .relinearize => 8
  | .modSwitch => 9
  | .rotateLeftConst => 10
  | .rotateRightConst => 11
  | .rescale => 12
  | .encode => 13

/-- A term-graph node as the semantic term model reads it: operation kind,
operand list by pointer identity (identities modelled as numeric ids), the
numeric `index`, and the per-kind attributes. `get<...>` of an attribute the
operation does not use is never read by the model, so the fields are total;
the rotation, divisor and level attributes are integral, the encode scale is
a `double`. -/
structure Term where
  op : Op
  operands : List Nat
  index : Nat
  cval : CV
  rotation : Nat
  divisor : Nat
  scale : Value
  level : Nat
deriving DecidableEq, Inhabited

/-- `SemanticTermEquality::operator()`: operation kinds must match, operand
counts must match, operands must be pairwise pointer-identical, and then the
operation-specific attribute tie-break decides — with `Op::Undef` never equal
to anything. -/
def termEq (l r : Term) : Bool :=
  if l.op ≠ r.op then false
  else if l.operands.length ≠ r.operands.length then false
  else if l.operands ≠ r.operands then false
  else
    match l.op with
    | .undef => false
    | .input | .output => decide (l.index = r.index)
    | .constant => cvEq l.cval r.cval
    | .negate | .add | .sub | .mul | .relinearize | .modSwitch => true
    | .rotateLeftConst | .rotateRightConst => decide (l.rotation = r.rotation)
    | .rescale => decide (l.divisor = r.divisor)
    | .encode => decide (l.scale = r.scale) && decide (l.level = r.level)

/-- `SemanticTermHash::operator()`: combine the op, then each operand's
identity, then the same operation-specific payload the equality tie-break
uses. A Constant term combines the attached value's `hash()` (through
`std::hash<eva::ConstantValue>`), so that hash's undefined behaviour on
sub-period dense buffers propagates. -/
def termHash (hd : Value → Nat) (t : Term) : Option Nat :=
  let h1 := t.operands.foldl hashCombine (hashCombine 0 (opCode t.op))
  match t.op with
  | .input | .output => some (hashCombine h1 t.index)
  | .constant => (cvHash hd t.cval).map (hashCombine h1)
  | .undef | .negate | .add | .sub | .mul | .relinearize | .modSwitch => some h1
  | .rotateLeftConst | .rotateRightConst => some (hashCombine h1 t.rotation)
  | .rescale => some (hashCombine h1 t.divisor)
  | .encode => some (hashCombine (hashCombine h1 (hd t.scale)) t.level)

/-- The lookup `std::unordered_set::insert` performs on the hash-consing
table: the already-present element that `SemanticTermEquality` judges equal
to `term`, if any. `insert` hands back an existing element only when the
equality functor accepts it, which is all the frame claim relies on. -/
def findEqTerm : List Term → Term → Option Term
  | [], _ => none
  | t :: rest, term => if termEq t term then some t else findEqTerm rest term

/-- `CommonSubexpressionEliminator::operator()`: insert `term`; only when an
equivalent term `rep` was already present, redirect `term`'s users to `rep`.
The surrounding graph is kept abstract: `replace g term rep` models the
mutation `term->replaceAllUsesWith(rep)` on a graph state `g`. -/
def process {G : Type} (replace : G → Term → Term → G)
    (st : List Term × G) (term : Term) : List Term × G :=
  match findEqTerm st.1 term with
  | some rep => (st.1, replace st.2 term rep)
  | none => (st.1 ++ [term], st.2)

/-! ### Helper lemmas about the hash combiner -/

lemma hashCombine_lt (h v : Nat) (hh : h < M) : hashCombine h v < M := by
  have hm : (v + 0x9e3779b9 + h * 64 + h / 4) % M < M :=
    Nat.mod_lt _ (by norm_num [M])
  exact Nat.xor_lt_two_pow (n := 64) hh hm

lemma hashCombine_inj_right (h : Nat) {a b : Nat} (ha : a < M) (hb : b < M)
    (hne : a ≠ b) : hashCombine h a ≠ hashCombine h b := by
  intro he
  apply hne
  have h2 : h ^^^ hashCombine h a = h ^^^ hashCombine h b := by rw [he]
  unfold hashCombine at h2
  rw [Nat.xor_cancel_left, Nat.xor_cancel_left] at h2
  unfold M at h2 ha hb
  omega

/-- Evaluation of the dense hash on the buffer `[0, 5, 0, 0]`: a zero run of
length 1, the value 5, then a trailing zero run of length 2. -/
lemma denseHash_eval_0500 (hd : Value → Nat) :
    denseHash hd 4 [0, 5, 0, 0] =
      some (hashCombine (hashCombine (hashCombine 0 1) (hd 5)) 2) := rfl

/-- Evaluation of the sparse hash on the entry list `[(1, 5)]` with
`size = 4`: the gap `1 - 0 = 1`, the value 5, then the trailing
`size - prev = 4 - 1 = 3` — not the trailing zero count 2. -/
lemma sparseHash_eval_15 (hd : Value → Nat) :
    sparseHash hd 4 [(1, 5)] =
      hashCombine (hashCombine (hashCombine 0 1) (hd 5)) 3 := rfl

lemma rlePrefix_lt (hd : Value → Nat) :
    hashCombine (hashCombine 0 1) (hd 5) < M :=
  hashCombine_lt _ _ (hashCombine_lt _ _ (by norm_num [M]))

/-- The two run-length encodings above land in different hashes, whatever the
double hasher is: their last combined words are 2 and 3 on the same prefix. -/
lemma rle_hashes_differ (hd : Value → Nat) :
    hashCombine (hashCombine (hashCombine 0 1) (hd 5)) 2 ≠
      hashCombine (hashCombine (hashCombine 0 1) (hd 5)) 3 :=
  hashCombine_inj_right _ (by norm_num [M]) (by norm_num [M]) (by norm_num)

/-! ### C1 -/

/-- C1. The claim states that `ConstantValue::operator==` returns true iff the
two values denote the same logical `size`-periodic sequence, and that a Dense
value equals a Sparse one exactly when the Dense pattern is zero at every
unlisted position. The code disagrees: `Dense(4, [1, 5, 1, 1])` and
`Sparse(4, [(1, 5)])` compare equal although they denote `[1, 5, 1, 1]` and
`[0, 5, 0, 0]` — `DenseConstantValue::operator==(const SparseConstantValue &)`
checks only the listed entries and never requires the unlisted positions of
the dense buffer to be zero. -/
theorem cvEq_true_on_different_patterns :
    cvEq (CV.dense 4 [1, 5, 1, 1]) (CV.sparse 4 [(1, 5)]) = true ∧
    specPattern (CV.dense 4 [1, 5, 1, 1]) = [1, 5, 1, 1] ∧
    specPattern (CV.sparse 4 [(1, 5)]) = [0, 5, 0, 0] := by
  refine ⟨by decide, by decide, by decide⟩

/-! ### C2 -/

/-- C2. The claim states that `hash()` is representation-invariant, in
particular that `Dense(4, [0, 5, 0, 0])` and `Sparse(4, [(1, 5)])` hash
equal. The code disagrees for every choice of the double hasher `hd`: the two
values denote the same pattern and compare equal, but the dense hash flushes
the trailing zero run as its length 2 while the sparse hash flushes
`size - prev = 3` (with `prev` the last entry's index, not the position after
it), so the hashes differ. -/
theorem cvHash_not_representation_invariant (hd : Value → Nat) :
    specPattern (CV.dense 4 [0, 5, 0, 0]) = specPattern (CV.sparse 4 [(1, 5)]) ∧
    cvEq (CV.dense 4 [0, 5, 0, 0]) (CV.sparse 4 [(1, 5)]) = true ∧
    cvHash hd (CV.dense 4 [0, 5, 0, 0]) ≠ cvHash hd (CV.sparse 4 [(1, 5)]) := by
  refine ⟨by decide, by decide, ?_⟩
  intro he
  rw [cvHash, cvHash, denseHash_eval_0500 hd, sparseHash_eval_15 hd,
    Option.some.injEq] at he
  exact rle_hashes_differ hd he

/-! ### C3 -/

/-- C3. The claim states the expansion law: `expand(k * size)` is the logical
pattern concatenated `k` times. The code disagrees for the Sparse variant:
its tiling loop steps by `values.size()` (the number of stored entries)
instead of the period `size`, so `Sparse(4, [(0, 7)])`, whose pattern is
`[7, 0, 0, 0]`, expands at `slots = 4` to `[7, 7, 7, 7]` — the single entry
is written at every slot. -/
theorem sparseExpand_breaks_expansion_law :
    sparseExpand 4 [(0, 7)] 4 = Except.ok [7, 7, 7, 7] ∧
    specPattern (CV.sparse 4 [(0, 7)]) = [7, 0, 0, 0] := ⟨rfl, by decide⟩

/-! ### C5 -/

/-- C5. The claim states that expansion succeeds without raising whenever
`slots ≥ size` and `size` divides `slots`. The code disagrees for the Sparse
variant: `Sparse(4, [(1, 5)]).expand(4)` passes `validateSlots` (4 ≥ 4 and
4 % 4 = 0) and then raises `std::out_of_range`, because the tiling loop steps
by the entry count 1 and reaches the write `scratch.at(1 + 3)` on a buffer of
length 4. -/
theorem sparseExpand_raises_on_valid_slots :
    validateSlots 4 4 = none ∧
    sparseExpand 4 [(1, 5)] 4 = Except.error ExpandError.outOfRange := ⟨rfl, rfl⟩

/-! ### C8 -/

/-- C8. The claim states that `DenseConstantValue::hash` reads only indices
within the stored buffer (indexing modulo the buffer length) and hashes a
strict sub-period buffer like its full expansion. The code disagrees: the
loop reads `values[i]` for every `i < size` without a modulo, so for the
sub-period buffer `[1, 2]` with `size = 4` it reads `values[2]` and
`values[3]` past the end — undefined behaviour, modelled as `none` — while
the full-length buffer `[1, 2, 1, 2]` hashes fine. This holds for every
double hasher `hd`. -/
theorem denseHash_reads_past_subperiod_buffer (hd : Value → Nat) :
    denseHash hd 4 [1, 2] = none ∧ denseHash hd 4 [1, 2, 1, 2] ≠ none := by
  refine ⟨rfl, ?_⟩
  have he : denseHash hd 4 [1, 2, 1, 2] =
      some (hashCombine (hashCombine (hashCombine (hashCombine 0 (hd 1)) (hd 2))
        (hd 1)) (hd 2)) := rfl
  rw [he]
  exact Option.some_ne_none _

/-! ### C4 -/

/-- C4. The claim states hash soundness: terms `SemanticTermEquality` judges
equal get the same `SemanticTermHash`, including Constant terms whose
attached values are in different physical representations. The code disagrees
for every double hasher `hd`: two operand-free Constant terms carrying
`Dense(4, [0, 5, 0, 0])` and `Sparse(4, [(1, 5)])` are judged equal (the
attached values compare equal), yet their hashes combine the two different
constant-value hashes of C2 onto the same prefix and therefore differ. -/
theorem termHash_not_sound_for_constants (hd : Value → Nat) :
    termEq ⟨Op.constant, [], 0, CV.dense 4 [0, 5, 0, 0], 0, 0, 0, 0⟩
        ⟨Op.constant, [], 0, CV.sparse 4 [(1, 5)], 0, 0, 0, 0⟩ = true ∧
    termHash hd ⟨Op.constant, [], 0, CV.dense 4 [0, 5, 0, 0], 0, 0, 0, 0⟩ ≠
      termHash hd ⟨Op.constant, [], 0, CV.sparse 4 [(1, 5)], 0, 0, 0, 0⟩ := by
  refine ⟨by decide, ?_⟩
  intro he
  have hD : termHash hd ⟨Op.constant, [], 0, CV.dense 4 [0, 5, 0, 0], 0, 0, 0, 0⟩ =
      some (hashCombine (hashCombine 0 (opCode Op.constant))
        (hashCombine (hashCombine (hashCombine 0 1) (hd 5)) 2)) := rfl
  have hS : termHash hd ⟨Op.constant, [], 0, CV.sparse 4 [(1, 5)], 0, 0, 0, 0⟩ =
      some (hashCombine (hashCombine 0 (opCode Op.constant))
        (hashCombine (hashCombine (hashCombine 0 1) (hd 5)) 3)) := rfl
  rw [hD, hS, Option.some.injEq] at he
  have h2 : hashCombine (hashCombine (hashCombine 0 1) (hd 5)) 2 < M :=
    hashCombine_lt _ _ (rlePrefix_lt hd)
  have h3 : hashCombine (hashCombine (hashCombine 0 1) (hd 5)) 3 < M :=
    hashCombine_lt _ _ (rlePrefix_lt hd)
  exact hashCombine_inj_right _ h2 h3 (rle_hashes_differ hd) he

/-! ### C6 -/

lemma termEq_false_of_undef_left (a b : Term) (ha : a.op = Op.undef) :
    termEq a b = false := by
  by_cases h1 : a.op ≠ b.op
  · rw [termEq, if_pos h1]
  · rw [termEq, if_neg h1]
    by_cases h2 : a.operands.length ≠ b.operands.length
    · rw [if_pos h2]
    · rw [if_neg h2]
      by_cases h3 : a.operands ≠ b.operands
      · rw [if_pos h3]
      · rw [if_neg h3, ha]

lemma termEq_false_of_undef_right (a b : Term) (hb : b.op = Op.undef) :
    termEq a b = false := by
  by_cases h1 : a.op ≠ b.op
  · rw [termEq, if_pos h1]
  · exact termEq_false_of_undef_left a b (by rw [not_not.mp h1, hb])

lemma findEqTerm_none_of_undef (term : Term) (h : term.op = Op.undef) :
    ∀ table : List Term, findEqTerm table term = none := by
  intro table
  induction table with
  | nil => rfl
  | cons t rest ih =>
    rw [findEqTerm, termEq_false_of_undef_right t term h]
    simpa using ih

/-- C6. Confirmed: `SemanticTermEquality` returns false for every pair of
`Op::Undef` terms — whichever fields they share, a structurally identical
second instance and self-comparison included — so the CSE pass never finds an
existing representative for an Undef term and never redirects its users. -/
theorem undef_terms_never_equal (a b : Term) (ha : a.op = Op.undef)
    (hb : b.op = Op.undef) :
    termEq a b = false ∧ termEq b a = false ∧
    ∀ {G : Type} (replace : G → Term → Term → G) (table : List Term) (g : G),
      process replace (table, g) a = (table ++ [a], g) := by
  refine ⟨termEq_false_of_undef_left a b ha, termEq_false_of_undef_left b a hb, ?_⟩
  intro G replace table g
  simp [process, findEqTerm_none_of_undef a ha table]

/-- Witness for C6 at a concrete Undef term compared with itself. -/
theorem undef_terms_never_equal_witness :
    termEq ⟨Op.undef, [], 0, CV.dense 0 [], 0, 0, 0, 0⟩
      ⟨Op.undef, [], 0, CV.dense 0 [], 0, 0, 0, 0⟩ = false :=
  (undef_terms_never_equal _ _ rfl rfl).1

/-! ### C7 -/

/-- C7. Confirmed: for terms with the same operation kind and identical
operand-identity lists, `SemanticTermEquality` reduces to the
operation-specific attribute tie-break — true for the parameterless ops
(Negate, Add, Sub, Mul, Relinearize, ModSwitch); the index comparison for
Input/Output; the attached-value comparison for Constant; the rotation
comparison for RotateLeftConst/RotateRightConst; the divisor comparison for
Rescale; and the scale-and-level comparison for Encode. -/
theorem termEq_tiebreak (l r : Term) (hop : l.op = r.op)
    (hops : l.operands = r.operands) :
    termEq l r =
      match l.op with
      | .undef => false
      | .input | .output => decide (l.index = r.index)
      | .constant => cvEq l.cval r.cval
      | .negate | .add | .sub | .mul | .relinearize | .modSwitch => true
      | .rotateLeftConst | .rotateRightConst => decide (l.rotation = r.rotation)
      | .rescale => decide (l.divisor = r.divisor)
      | .encode => decide (l.scale = r.scale) && decide (l.level = r.level) := by
  rw [termEq, if_neg (by simp [hop]), if_neg (by simp [hops]),
    if_neg (by simp [hops])]

/-- Witness for C7 at a concrete pair of Encode terms with equal scale and
level attributes but different index, rotation and divisor fields. -/
theorem termEq_tiebreak_witness :
    termEq ⟨Op.encode, [3], 7, CV.dense 0 [], 1, 2, 9, 4⟩
      ⟨Op.encode, [3], 8, CV.sparse 0 [], 5, 6, 9, 4⟩ = true := by
  have h := termEq_tiebreak ⟨Op.encode, [3], 7, CV.dense 0 [], 1, 2, 9, 4⟩
    ⟨Op.encode, [3], 8, CV.sparse 0 [], 5, 6, 9, 4⟩ rfl rfl
  exact h.trans (by decide)

/-! ### C10 -/

lemma findEqTerm_eq_none (term : Term) :
    ∀ table : List Term, (∀ t ∈ table, termEq t term = false) →
      findEqTerm table term = none := by
  intro table
  induction table with
  | nil => intro _; rfl
  | cons t rest ih =>
    intro h
    rw [findEqTerm, h t (List.mem_cons_self t rest)]
    simpa using ih fun x hx => h x (List.mem_cons_of_mem t hx)

/-- C10. Confirmed: when no term of the hash-consing table is semantically
equal to `term`, `process` performs no graph mutation — the abstract graph
state comes back untouched and `term` is appended to the table as the new
representative; and conversely, whenever `process` changes the graph state at
all, the table already held a semantically equal representative. -/
theorem process_frame {G : Type} (replace : G → Term → Term → G)
    (table : List Term) (g : G) (term : Term) :
    ((∀ t ∈ table, termEq t term = false) →
      process replace (table, g) term = (table ++ [term], g)) ∧
    ((process replace (table, g) term).2 ≠ g →
      ∃ rep ∈ table, termEq rep term = true) := by
  constructor
  · intro h
    simp [process, findEqTerm_eq_none term table h]
  · intro hne
    by_cases hf : ∃ rep ∈ table, termEq rep term = true
    · exact hf
    · exfalso
      apply hne
      push_neg at hf
      have h : ∀ t ∈ table, termEq t term = false := by
        intro t ht
        cases hb : termEq t term with
        | false => rfl
        | true => exact absurd hb (hf t ht)
      simp [process, findEqTerm_eq_none term table h]

/-- Witness for C10: inserting an Input term into a table holding only a
different Input term mutates nothing and appends the new term. -/
theorem process_frame_witness :
    process (fun (g : Nat) _ _ => g + 1)
      ([⟨Op.input, [], 0, CV.dense 0 [], 0, 0, 0, 0⟩], 0)
      ⟨Op.input, [], 1, CV.dense 0 [], 0, 0, 0, 0⟩ =
      ([⟨Op.input, [], 0, CV.dense 0 [], 0, 0, 0, 0⟩,
        ⟨Op.input, [], 1, CV.dense 0 [], 0, 0, 0, 0⟩], 0) :=
  (process_frame (fun (g : Nat) _ _ => g + 1) _ 0 _).1 (by decide)

/-! ### C9 -/

/-- `toSigned32` is injective on the values a `std::uint32_t` can hold. -/
lemma toSigned32_inj {a b : Nat} (ha : a < 2 ^ 32) (hb : b < 2 ^ 32)
    (h : toSigned32 a = toSigned32 b) : a = b := by
  unfold toSigned32 at h
  rw [Nat.mod_eq_of_lt ha, Nat.mod_eq_of_lt hb] at h
  split_ifs at h <;> omega

/-- In a list sorted by the comparator's key (nondecreasing signed 32-bit
reading of the index), the constructor's adjacent-pair scan misses a
duplicate index exactly when there is none at all: equal indices have equal
keys, so they sit in a contiguous equal-key run where some pair is adjacent. -/
lemma hasDupAdjacent_eq_false_iff :
    ∀ l : List (Nat × Value),
      l.Pairwise (fun a b => toSigned32 a.1 ≤ toSigned32 b.1) →
      (∀ e ∈ l, e.1 < 2 ^ 32) →
      (hasDupAdjacent l = false ↔ l.Pairwise (fun a b => a.1 ≠ b.1)) := by
  intro l
  induction l with
  | nil => intro _ _; simp [hasDupAdjacent]
  | cons a t ih =>
    intro hs hb
    cases t with
    | nil => simp [hasDupAdjacent]
    | cons b t2 =>
      rw [List.pairwise_cons] at hs
      obtain ⟨hale, hrest⟩ := hs
      have hb2 : ∀ e ∈ b :: t2, e.1 < 2 ^ 32 :=
        fun e he => hb e (List.mem_cons_of_mem a he)
      have ih2 := ih hrest hb2
      rw [hasDupAdjacent, Bool.or_eq_false_iff]
      constructor
      · rintro ⟨h1, h2⟩
        have hab : a.1 ≠ b.1 := by simpa using h1
        refine List.pairwise_cons.mpr ⟨?_, ih2.mp h2⟩
        intro x hx
        rcases List.mem_cons.mp hx with rfl | hx2
        · exact hab
        · intro hax
          have h1l : toSigned32 a.1 ≤ toSigned32 b.1 :=
            hale b (List.mem_cons_self b t2)
          have h2l : toSigned32 b.1 ≤ toSigned32 x.1 :=
            (List.pairwise_cons.mp hrest).1 x hx2
          rw [← congrArg toSigned32 hax] at h2l
          have hkeq : toSigned32 a.1 = toSigned32 b.1 := le_antisymm h1l h2l
          exact hab (toSigned32_inj (hb a (List.mem_cons_self a (b :: t2)))
            (hb b (List.mem_cons_of_mem a (List.mem_cons_self b t2))) hkeq)
      · intro hpw
        rw [List.pairwise_cons] at hpw
        obtain ⟨hane, hpw2⟩ := hpw
        exact ⟨decide_eq_false (hane b (List.mem_cons_self b t2)), ih2.mpr hpw2⟩

/-- C9, amended: Sparse construction fails exactly when the nonzero-valued
input entries contain a duplicate index (duplicates among zero-valued entries
are filtered away before the check and cannot fail); on success the stored
list is exactly the nonzero input entries, sorted by strictly increasing
signed 32-bit reading of the index — the order the converting comparator
implements, under which indices at or above `2 ^ 31` sort as negative and
precede smaller indices — and `isZero()` holds iff no entry is stored, i.e.
iff every input value is zero. The hypothesis `hB` only states the C++ type
of the indices: the constructor receives them as `std::uint32_t`, so every
input index is below `2 ^ 32`. -/
theorem mkSparse_characterization (entries : List (Nat × Value))
    (hB : ∀ e ∈ entries, e.1 < 2 ^ 32) :
    (mkSparse entries = none ↔
      ¬ ((entries.filter fun e => decide (e.2 ≠ 0)).map Prod.fst).Nodup) ∧
    ∀ stored, mkSparse entries = some stored →
      stored.Perm (entries.filter fun e => decide (e.2 ≠ 0)) ∧
      stored.Pairwise (fun a b => toSigned32 a.1 < toSigned32 b.1) ∧
      (sparseIsZero stored = true ↔ ∀ e ∈ entries, e.2 = 0) := by
  classical
  have hmk : mkSparse entries =
      (if 0 < (entries.filter fun e => decide (e.2 ≠ 0)).length then
        (if hasDupAdjacent ((entries.filter fun e => decide (e.2 ≠ 0)).insertionSort
            fun a b => toSigned32 a.1 ≤ toSigned32 b.1) then none
         else some ((entries.filter fun e => decide (e.2 ≠ 0)).insertionSort
            fun a b => toSigned32 a.1 ≤ toSigned32 b.1))
       else some (entries.filter fun e => decide (e.2 ≠ 0))) := rfl
  set k := entries.filter fun e => decide (e.2 ≠ 0) with hk
  set s := k.insertionSort fun a b => toSigned32 a.1 ≤ toSigned32 b.1 with hs
  have hkB : ∀ e ∈ k, e.1 < 2 ^ 32 := by
    intro e he
    exact hB e (List.mem_of_mem_filter he)
  have hperm : s.Perm k := List.perm_insertionSort _ k
  have hsortedKey : s.Pairwise fun a b => toSigned32 a.1 ≤ toSigned32 b.1 := by
    haveI : IsTrans (Nat × Value) (fun a b => toSigned32 a.1 ≤ toSigned32 b.1) :=
      ⟨fun _ _ _ hab hbc => le_trans hab hbc⟩
    haveI : IsTotal (Nat × Value) (fun a b => toSigned32 a.1 ≤ toSigned32 b.1) :=
      ⟨fun _ _ => le_total _ _⟩
    exact List.sorted_insertionSort _ k
  have hsB : ∀ e ∈ s, e.1 < 2 ^ 32 := fun e he => hkB e (hperm.mem_iff.mp he)
  have hdup := hasDupAdjacent_eq_false_iff s hsortedKey hsB
  have hnodup_iff : (k.map Prod.fst).Nodup ↔ s.Pairwise fun a b => a.1 ≠ b.1 := by
    rw [← (hperm.map Prod.fst).nodup_iff]
    unfold List.Nodup
    exact List.pairwise_map
  have hallzero_iff : k = [] ↔ ∀ e ∈ entries, e.2 = 0 := by
    rw [hk, List.filter_eq_nil_iff]
    constructor
    · intro h e he
      have := h e he
      simpa using this
    · intro h e he
      simp [h e he]
  by_cases h0 : 0 < k.length
  · have hmk2 : mkSparse entries = if hasDupAdjacent s then none else some s := by
      rw [hmk, if_pos h0]
    cases hd : hasDupAdjacent s with
    | true =>
      have hmk3 : mkSparse entries = none := by rw [hmk2, hd]; rfl
      refine ⟨?_, ?_⟩
      · rw [hmk3, hnodup_iff]
        constructor
        · intro _ hpw
          rw [hdup.mpr hpw] at hd
          exact Bool.false_ne_true hd
        · intro _
          rfl
      · intro stored hst
        rw [hmk3] at hst
        exact absurd hst (by simp)
    | false =>
      have hmk3 : mkSparse entries = some s := by rw [hmk2, hd]; rfl
      have hne : s.Pairwise fun a b => a.1 ≠ b.1 := hdup.mp hd
      refine ⟨?_, ?_⟩
      · rw [hmk3]
        constructor
        · intro h
          exact absurd h (by simp)
        · intro h
          exact absurd (hnodup_iff.mpr hne) h
      · intro stored hst
        rw [hmk3, Option.some.injEq] at hst
        subst hst
        refine ⟨hperm, ?_, ?_⟩
        · refine (hsortedKey.and hne).imp_of_mem ?_
          intro a b haM hbM hab
          refine lt_of_le_of_ne hab.1 ?_
          intro hkeq
          exact hab.2 (toSigned32_inj (hsB a haM) (hsB b hbM) hkeq)
        · have hlen2 : s.length = k.length := hperm.length_eq
          rw [sparseIsZero]
          constructor
          · intro hz
            exfalso
            have hzl : s.length = 0 := of_decide_eq_true hz
            omega
          · intro hall
            exfalso
            have : k = [] := hallzero_iff.mpr hall
            rw [this] at h0
            simp at h0
  · have hknil : k = [] := List.length_eq_zero.mp (Nat.eq_zero_of_not_pos h0)
    have hmk3 : mkSparse entries = some [] := by rw [hmk, if_neg h0, hknil]
    refine ⟨?_, ?_⟩
    · rw [hmk3, hnodup_iff]
      constructor
      · intro h
        exact absurd h (by simp)
      · intro h
        exfalso
        apply h
        have : s = [] := by rw [hs, hknil]; rfl
        rw [this]
        exact List.Pairwise.nil
    · intro stored hst
      rw [hmk3, Option.some.injEq] at hst
      subst hst
      refine ⟨by rw [hknil], List.Pairwise.nil, ?_⟩
      constructor
      · intro _
        exact hallzero_iff.mp hknil
      · intro _
        rfl

/-- Witness for C9 at the input `[(2, 5), (0, 0), (1, 7)]`: the zero entry is
dropped, the rest are stored sorted by the comparator's key, and the value is
not zero. -/
theorem mkSparse_characterization_witness :
    ([((1 : Nat), (7 : Value)), (2, 5)]).Perm
      ([((2 : Nat), (5 : Value)), (0, 0), (1, 7)].filter fun e => decide (e.2 ≠ 0)) ∧
    ([((1 : Nat), (7 : Value)), (2, 5)]).Pairwise
      (fun a b => toSigned32 a.1 < toSigned32 b.1) ∧
    (sparseIsZero [((1 : Nat), (7 : Value)), (2, 5)] = true ↔
      ∀ e ∈ [((2 : Nat), (5 : Value)), (0, 0), (1, 7)], e.2 = 0) :=
  (mkSparse_characterization [(2, 5), (0, 0), (1, 7)] (by decide)).2
    [(1, 7), (2, 5)] (by rfl)

/-- Counterexamples to C9 as stated, one per divergence. First, the input
`[(1, 0), (1, 5)]` contains a duplicate index (its index list is `[1, 1]`),
yet construction succeeds — the zero-valued duplicate is filtered out before
the duplicate check — and stores `[(1, 5)]`. Second, the input
`[(2 ^ 31, 1), (5, 2)]` has no duplicates and construction succeeds, but the
stored list keeps the index `2 ^ 31` before the index `5` — the comparator
reads the `uint32_t` index as a negative `int` — so the entries are not
sorted by strictly increasing index. -/
theorem mkSparse_claim_counterexample :
    (mkSparse [(1, 0), (1, 5)] = some [(1, 5)] ∧
      ([((1 : Nat), (0 : Value)), (1, 5)].map Prod.fst) = [1, 1]) ∧
    (mkSparse [(2 ^ 31, 1), (5, 2)] = some [(2 ^ 31, 1), (5, 2)] ∧
      ¬ ([((2 ^ 31 : Nat), (1 : Value)), (5, 2)].Pairwise
        fun a b => a.1 < b.1)) :=
  ⟨⟨rfl, rfl⟩, ⟨rfl, by decide⟩⟩

end EVA
